import Mathlib

/-!
Shallow embedding of the hierarchical-clustering portfolio engine of
`riskfolio/src/HCPortfolio.py` (class `HCPortfolio`), together with proofs
checking the natural-language specification against it.

Modelling conventions:
* Machine floats are modelled by exact rationals (`ℚ`) wherever the code only
  uses field operations, and by `ℝ` where the code applies `sqrt`/`log`
  (the distance transform); the distance dispatch itself is polymorphic in
  the scalar type so that it stays executable.
* The external scalar risk function `rk.Sharpe_Risk` (from
  `RiskFunctions.py`, not part of the sources under analysis and declared an
  external black box by the specification) is a parameter
  `sharpe : String → List ℕ → List ℚ → ℚ` taking the risk-measure name, the
  asset subset (global column indices) and the weight vector on that subset.
* The external convex optimizer used by NCO is a parameter returning
  `Except String (List ℚ)`.
* The scipy dendrogram objects (`hr.to_tree` nodes, `hr.fcluster` /
  `hr.cut_tree` partitions, `hr.leaves_list` orders) are external inputs and
  enter the embedding as explicit data (node lists, cluster lists, sort
  orders).
* pandas Series/DataFrame columns indexed by assets are modelled as
  `List ℚ` (positional) or `ℕ → ℚ` (by global asset index).
-/

namespace HCPortfolio

/-- Model of `np.clip(x, lo, hi)` as used by the distance transform:
`minimum(hi, maximum(lo, x))`. -/
def npclip {α : Type} [Min α] [Max α] (x lo hi : α) : α := min hi (max lo x)

/-- Outcome of one dispatch stage of the Python code: a produced value, an
explicitly `raise`d configuration error (`NameError`/`ValueError` in the
source), or a fall-through of an `if/elif` chain that leaves a local variable
unassigned so that its next use raises `UnboundLocalError`. -/
inductive StageResult (α : Type) where
  | ok : α → StageResult α
  | configError : String → StageResult α
  | unboundLocal : StageResult α
deriving DecidableEq

/-- Constructor discriminator for `StageResult`. -/
def StageResult.isConfigError {α : Type} : StageResult α → Bool
  | .configError _ => true
  | _ => false

/-- Metrics of the first branch of the distance dispatch in
`_hierarchical_clustering` (correlation-like family). -/
def corrMetrics : List String :=
  ["pearson", "spearman", "kendall", "gerber1", "gerber2", "custom_cov"]

/-- Metrics of the second branch (absolute-value family). -/
def absMetrics : List String :=
  ["abs_pearson", "abs_spearman", "abs_kendall", "distance"]

/-- The full supported codependence set named by the specification. -/
def supportedCodependence : List String :=
  corrMetrics ++ absMetrics ++ ["mutual_info", "tail"]

/-- Elementwise distance transform of `_hierarchical_clustering`
(HCPortfolio.py, the `if codependence in {...}` chain computing `dist`).
`c` is the codependence entry `C[i,j]`; `vi` abstracts the corresponding
entry of `af.var_info_matrix` (external, used only by `mutual_info`);
`sqrtF`/`logF` stand for `np.sqrt`/`np.log` (instantiated with
`Real.sqrt`/`Real.log` in the theorems). The chain has no `else` branch: an
unknown metric leaves the local `dist` unassigned and the following
`dist.to_numpy()` raises `UnboundLocalError`, modelled by `.unboundLocal`. -/
def distElem {α : Type} [Sub α] [Div α] [Neg α] [Min α] [Max α]
    [OfNat α 0] [OfNat α 1] [OfNat α 2]
    (sqrtF logF : α → α) (metric : String) (vi c : α) : StageResult α :=
  if metric ∈ corrMetrics then .ok (sqrtF (npclip ((1 - c) / 2) 0 1))
  else if metric ∈ absMetrics then .ok (sqrtF (npclip (1 - c) 0 1))
  else if metric = "mutual_info" then .ok vi
  else if metric = "tail" then .ok (-logF c)
  else .unboundLocal

/-- The unit single-asset portfolio `w` built in `_naive_risk`'s loop:
an `n`-vector of zeros with a `1` at position `k`. -/
def unitVec (n k : ℕ) : List ℚ :=
  (List.range n).map (fun j => if j = k then 1 else 0)

/-- Per-asset risk of `_naive_risk`'s loop: `rk.Sharpe_Risk` on the unit
portfolio at position `k` of subset `c`, with measure name `"MV"`
substituted when the selector is `"vol"` (the `if rm == "vol"` branch). -/
def perAssetRisk (sharpe : String → List ℕ → List ℚ → ℚ) (rm : String)
    (c : List ℕ) (k : ℕ) : ℚ :=
  if rm = "vol" then sharpe "MV" c (unitVec c.length k)
  else sharpe rm c (unitVec c.length k)

/-- Inversion step of `_naive_risk`: `1/risk²` when the selector is `"MV"`,
`1/risk` for every other selector. -/
def invertRisk (rm : String) (r : ℚ) : ℚ :=
  if rm = "MV" then 1 / r ^ 2 else 1 / r

/-- Embedding of `_naive_risk` (HCPortfolio.py): equal weights `1/n` for `"equal"`,
otherwise the inverted per-asset risks normalized by
`inv_risk * (1 / np.sum(inv_risk))`. -/
def naiveRisk (sharpe : String → List ℕ → List ℚ → ℚ) (rm : String)
    (c : List ℕ) : List ℚ :=
  if rm = "equal" then List.replicate c.length (1 / (c.length : ℚ))
  else
    let inv := (List.range c.length).map
      (fun k => invertRisk rm (perAssetRisk sharpe rm c k))
    inv.map (fun x => x * (1 / inv.sum))

/-- The per-side / per-cluster risk evaluation shared by
`_recursive_bisection` and `_hierarchical_recursive_bisection`: the
selected risk measure applied to the subset's naive-risk portfolio, with
`"MV"` substituted for `"vol"` and the result squared when the selector is
`"MV"` (`left_risk = np.power(left_risk, 2)`). -/
def clusterRisk (sharpe : String → List ℕ → List ℚ → ℚ) (rm : String)
    (c : List ℕ) : ℚ :=
  let w := naiveRisk sharpe rm c
  if rm = "vol" then sharpe "MV" c w
  else if rm = "MV" then (sharpe rm c w) ^ 2
  else sharpe rm c w

/-- Model of `set(a).issubset(set(b))` on index lists. -/
def subsetB (a b : List ℕ) : Bool := a.all (fun x => decide (x ∈ b))

/-- The accumulation loop over the final clusters at one internal node of
`_hierarchical_recursive_bisection` (`for j in clusters.keys(): ...`),
returning (left risk total, right risk total, left asset list, right asset
list). A cluster contained in the left descendant set adds its risk to the
left total and its members to the left list; otherwise (`elif`) one
contained in the right set adds to the right; a cluster contained in
neither is skipped. -/
def nodeAccum (risk : List ℕ → ℚ) (lset rset : List ℕ)
    (clusters : List (List ℕ)) : ℚ × ℚ × List ℕ × List ℕ :=
  clusters.foldl (fun acc c =>
    if subsetB c lset then (acc.1 + risk c, acc.2.1, acc.2.2.1 ++ c, acc.2.2.2)
    else if subsetB c rset then
      (acc.1, acc.2.1 + risk c, acc.2.2.1, acc.2.2.2 ++ c)
    else acc) (0, 0, [], [])

/-- Modelled from the spec: the left-side risk total following the
specification's words literally — the sum of the risks of exactly those
final clusters that are STRICT subsets of the left descendant set. Kept
separate from `nodeAccum` (the source behaviour) for comparison. -/
def specStrictLeftRisk (risk : List ℕ → ℚ) (lset : List ℕ)
    (clusters : List (List ℕ)) : ℚ :=
  ((clusters.filter (fun c => subsetB c lset && !subsetB lset c)).map risk).sum

/-- An internal dendrogram node as consumed by
`_hierarchical_recursive_bisection` after `hr.to_tree`: the scipy
`is_leaf()` flag and the `pre_order` leaf-index lists of its two
children. -/
structure HNode where
  isLeaf : Bool
  left : List ℕ
  right : List ℕ

/-- One iteration of the `for i in nodes[: self.k - 1]` loop of
`_hierarchical_recursive_bisection`, updating the running weights `w`
(indexed by global asset id). Mirrors the source control flow exactly: leaf
nodes are skipped; for `rm == "equal"` the branch assigns `alpha_1 = 0.5`
and nothing else — the two `weights.iloc[...] *=` statements are indented
inside the `else` branch — so the weights come back unchanged; otherwise
the cluster loop accumulates the side risks and the weights of the left and
right pre-order leaf lists are multiplied by `alpha_1` and `1 - alpha_1`. -/
def hercNodeStep (sharpe : String → List ℕ → List ℚ → ℚ) (rm : String)
    (clusters : List (List ℕ)) (w : ℕ → ℚ) (node : HNode) : ℕ → ℚ :=
  if node.isLeaf then w
  else if rm = "equal" then w
  else
    let acc := nodeAccum (clusterRisk sharpe rm) node.left node.right clusters
    let alpha := 1 - acc.1 / (acc.1 + acc.2.1)
    let w1 := fun j => if j ∈ node.left then w j * alpha else w j
    fun j => if j ∈ node.right then w1 j * (1 - alpha) else w1 j

/-- Stage 1 of `_hierarchical_recursive_bisection`: the loop over the top
`k - 1` merge nodes (the caller passes the internal nodes sorted by merge
distance, descending, as produced by the `np.argsort` / reverse step). -/
def hercStage1 (sharpe : String → List ℕ → List ℚ → ℚ) (rm : String)
    (clusters : List (List ℕ)) (nodes : List HNode) (k : ℕ)
    (w : ℕ → ℚ) : ℕ → ℚ :=
  (nodes.take (k - 1)).foldl (hercNodeStep sharpe rm clusters) w

/-- Final intra-cluster pass of `_hierarchical_recursive_bisection`: each
final cluster's naive-risk weights (with the selector forced to `"equal"`
for model `"HERC2"`) are multiplied into its members' running weights. -/
def hercIntra (sharpe : String → List ℕ → List ℚ → ℚ) (model rm : String)
    (clusters : List (List ℕ)) (w : ℕ → ℚ) : ℕ → ℚ :=
  clusters.foldl (fun w c =>
    let cw := naiveRisk sharpe (if model = "HERC2" then "equal" else rm) c
    (c.zip cw).foldl
      (fun w p => fun j => if j = p.1 then w j * p.2 else w j) w) w

/-- Full `_hierarchical_recursive_bisection`: weights start at 1, stage 1
runs over the top `k - 1` nodes, then the intra-cluster pass runs over the
`k` final clusters. -/
def hercWeights (sharpe : String → List ℕ → List ℚ → ℚ) (model rm : String)
    (nodes : List HNode) (k : ℕ) (clusters : List (List ℕ)) : ℕ → ℚ :=
  hercIntra sharpe model rm clusters
    (hercStage1 sharpe rm clusters nodes k (fun _ => 1))

/-- One generation of the worklist split in `_recursive_bisection`:
`items = [i[j:k] for i in items for (j,k) in ((0, len(i)//2),
(len(i)//2, len(i))) if len(i) > 1]`. -/
def splitStep (items : List (List ℕ)) : List (List ℕ) :=
  (items.filter (fun i => decide (1 < i.length))).flatMap
    (fun i => [i.take (i.length / 2), i.drop (i.length / 2)])

/-- Termination measure for the worklist: the sum of squared range
lengths. -/
def sqMeasure (items : List (List ℕ)) : ℕ :=
  (items.map (fun l => l.length ^ 2)).sum

/-- The `for i in range(0, len(items), 2)` pass of `_recursive_bisection`:
consecutive (left, right) pairs of the freshly split generation; the left
range's weights are multiplied by `alpha_1 = 1 - left_risk / (left_risk +
right_risk)` and the right range's by `1 - alpha_1`, the side risks being
`clusterRisk` on each side. -/
def hrpPairs (sharpe : String → List ℕ → List ℚ → ℚ) (rm : String) :
    List (List ℕ) → (ℕ → ℚ) → ℕ → ℚ
  | left :: right :: rest, w =>
    let lr := clusterRisk sharpe rm left
    let rr := clusterRisk sharpe rm right
    let alpha := 1 - lr / (lr + rr)
    let w1 := fun j => if j ∈ left then w j * alpha else w j
    let w2 := fun j => if j ∈ right then w1 j * (1 - alpha) else w1 j
    hrpPairs sharpe rm rest w2
  | _, w => w

/-- The `while len(items) > 0` loop of `_recursive_bisection` with explicit
fuel: each pass first splits the worklist, then allocates over the pairs.
The split halves range lengths, so the `sortOrder.length + 1` fuel supplied
by `recursiveBisection` is never exhausted before the worklist empties. -/
def hrpLoop (sharpe : String → List ℕ → List ℚ → ℚ) (rm : String) :
    ℕ → List (List ℕ) → (ℕ → ℚ) → ℕ → ℚ
  | 0, _, w => w
  | fuel + 1, items, w =>
    if items.isEmpty then w
    else
      let next := splitStep items
      hrpLoop sharpe rm fuel next (hrpPairs sharpe rm next w)

/-- Embedding of `_recursive_bisection` (HRP): running weights start at 1 for every
asset; `upperBound` and `lowerBound` are parameters of the source function
and, exactly as in the source, are never read by the body. -/
def recursiveBisection (sharpe : String → List ℕ → List ℚ → ℚ)
    (rm : String) (sortOrder : List ℕ)
    (upperBound lowerBound : List ℚ) : ℕ → ℚ :=
  hrpLoop sharpe rm (sortOrder.length + 1) [sortOrder] (fun _ => 1)

/-- Bool form of the step-4 guard of `optimization`:
`(upper_bound < weights).any() or (lower_bound > weights).any()` over the
first `n` asset positions. -/
def violationB (n : ℕ) (w lb ub : ℕ → ℚ) : Bool :=
  (List.range n).any (fun i => decide (ub i < w i) || decide (lb i > w i))

/-- One round of the step-4 redistribution loop in `optimization`: clip to
the bounds, find the assets strictly inside their bounds after clipping
(`tickers_mod`), compute the net clipped amount `delta`, and if nonzero
redistribute it over the inside assets proportionally to their clipped
weight. -/
def fitRound (n : ℕ) (lb ub w : ℕ → ℚ) : ℕ → ℚ :=
  let wc := fun i => max (min (w i) (ub i)) (lb i)
  let inside := fun i => decide (wc i < ub i) && decide (lb i < wc i)
  let pool := (((List.range n).filter inside).map wc).sum
  let add := ((List.range n).map (fun i => max (w i - ub i) 0)).sum
  let sub := ((List.range n).map (fun i => min (w i - lb i) 0)).sum
  let delta := add + sub
  if delta ≠ 0 then
    fun i => if inside i then wc i + delta * wc i / pool else wc i
  else wc

/-- The `while (violation) and (j < max_iter)` loop of step 4, with the
remaining iteration budget as fuel. -/
def fitLoop (n : ℕ) (lb ub : ℕ → ℚ) : ℕ → (ℕ → ℚ) → ℕ → ℚ
  | 0, w => w
  | fuel + 1, w =>
    if violationB n w lb ub then fitLoop n lb ub fuel (fitRound n lb ub w)
    else w

/-- Step 4 of `optimization` (the Bound Projector): if no weight violates
its bounds the vector passes through unchanged, otherwise the
redistribution loop runs for at most `max_iter = 100` rounds. -/
def boundProject (n : ℕ) (w lb ub : ℕ → ℚ) : ℕ → ℚ :=
  if violationB n w lb ub then fitLoop n lb ub 100 w else w

/-- Outcome of `_opt_w`: a weight vector, a propagated external-optimizer
error, or the fall-through with the local `weights` unassigned. -/
inductive OptOutcome where
  | ok : List ℚ → OptOutcome
  | optError : String → OptOutcome
  | unboundLocal : OptOutcome
deriving DecidableEq

/-- Embedding of `_opt_w` (HCPortfolio.py): a single-column cluster
(`returns.shape[1] == 1`) gets the weight vector `[1]` directly, without
building a `Portfolio` or invoking the external convex optimizer; otherwise
the external optimizer `opt` is invoked (`port.optimization` for
`MinRisk`/`Utility`/`Sharpe`, `port.rp_optimization` for `ERC`; any other
objective leaves `weights` unassigned). Optimizer failures propagate. -/
def optW (opt : String → List ℕ → Except String (List ℚ)) (obj : String)
    (c : List ℕ) : OptOutcome :=
  if c.length = 1 then .ok [1]
  else if obj ∈ ["MinRisk", "Utility", "Sharpe"] then
    match opt "Classic" c with
    | .ok ws => .ok ws
    | .error e => .optError e
  else if obj = "ERC" then
    match opt "rp" c with
    | .ok ws => .ok ws
    | .error e => .optError e
  else .unboundLocal

/-- One column of the `_intra_weights` table: the cluster's weight vector
reindexed over all assets, `fillna(0)` for assets outside the cluster. -/
def intraCol (c : List ℕ) (ws : List ℚ) (a : ℕ) : ℚ :=
  match c.findIdx? (fun x => decide (x = a)) with
  | some i => ws.getD i 0
  | none => 0

end HCPortfolio

namespace HCPortfolio

/-! ### Helper lemmas -/

theorem subsetB_iff (a b : List ℕ) : subsetB a b = true ↔ ∀ x ∈ a, x ∈ b := by
  simp [subsetB]

theorem splitStep_cons (c : List ℕ) (rest : List (List ℕ)) :
    splitStep (c :: rest) =
      (if 1 < c.length
        then [c.take (c.length / 2), c.drop (c.length / 2)] else []) ++
      splitStep rest := by
  by_cases hc : 1 < c.length
  · simp [splitStep, List.filter_cons, hc]
  · simp [splitStep, List.filter_cons, hc]

theorem sqMeasure_append (a b : List (List ℕ)) :
    sqMeasure (a ++ b) = sqMeasure a + sqMeasure b := by
  simp [sqMeasure]

theorem sqMeasure_split_strict (c : List ℕ) (hc : 1 < c.length) :
    sqMeasure [c.take (c.length / 2), c.drop (c.length / 2)] <
      c.length ^ 2 := by
  have ha : (c.take (c.length / 2)).length = c.length / 2 := by
    simp [List.length_take]
    omega
  have hb : (c.drop (c.length / 2)).length = c.length - c.length / 2 := by
    simp [List.length_drop]
  have hsq : sqMeasure [c.take (c.length / 2), c.drop (c.length / 2)] =
      (c.length / 2) ^ 2 + (c.length - c.length / 2) ^ 2 := by
    simp [sqMeasure, ha, hb]
  rw [hsq]
  have h1 : 1 ≤ c.length / 2 := by omega
  have h2 : 1 ≤ c.length - c.length / 2 := by omega
  have h3 : c.length / 2 + (c.length - c.length / 2) = c.length := by omega
  nlinarith [h1, h2, h3]

theorem sqMeasure_splitStep_le (items : List (List ℕ)) :
    sqMeasure (splitStep items) ≤ sqMeasure items := by
  induction items with
  | nil => simp [splitStep, sqMeasure]
  | cons c rest ih =>
    rw [splitStep_cons, sqMeasure_append]
    have hc2 : sqMeasure (c :: rest) = c.length ^ 2 + sqMeasure rest := by
      simp [sqMeasure]
    rw [hc2]
    by_cases hc : 1 < c.length
    · rw [if_pos hc]
      exact Nat.add_le_add (sqMeasure_split_strict c hc).le ih
    · rw [if_neg hc]
      have h0 : sqMeasure ([] : List (List ℕ)) = 0 := rfl
      rw [h0, Nat.zero_add]
      exact le_trans ih (Nat.le_add_left _ _)

theorem sqMeasure_splitStep_lt (items : List (List ℕ))
    (h : ∃ l ∈ items, 1 < l.length) :
    sqMeasure (splitStep items) < sqMeasure items := by
  induction items with
  | nil => simp at h
  | cons c rest ih =>
    rw [splitStep_cons, sqMeasure_append]
    have hc2 : sqMeasure (c :: rest) = c.length ^ 2 + sqMeasure rest := by
      simp [sqMeasure]
    rw [hc2]
    by_cases hc : 1 < c.length
    · rw [if_pos hc]
      exact Nat.add_lt_add_of_lt_of_le (sqMeasure_split_strict c hc)
        (sqMeasure_splitStep_le rest)
    · rw [if_neg hc]
      obtain ⟨l, hl, hlen⟩ := h
      rcases List.mem_cons.mp hl with rfl | hl
      · exact absurd hlen hc
      · have h0 : sqMeasure ([] : List (List ℕ)) = 0 := rfl
        rw [h0, Nat.zero_add]
        exact lt_of_lt_of_le (ih ⟨l, hl, hlen⟩) (Nat.le_add_left _ _)

theorem splitStep_eq_nil_iff (items : List (List ℕ)) :
    splitStep items = [] ↔ ∀ l ∈ items, l.length ≤ 1 := by
  induction items with
  | nil => simp [splitStep]
  | cons c rest ih =>
    rw [splitStep_cons]
    by_cases hc : 1 < c.length
    · simp [hc]
    · simp only [if_neg hc, List.nil_append, ih, List.mem_cons]
      constructor
      · intro hall l hl
        rcases hl with rfl | hl
        · omega
        · exact hall l hl
      · intro hall l hl
        exact hall l (Or.inr hl)

theorem splitStep_terminates_of_measure :
    ∀ (n : ℕ) (items : List (List ℕ)), sqMeasure items ≤ n →
      ∃ m, splitStep^[m] items = [] := by
  intro n
  induction n with
  | zero =>
    intro items h
    refine ⟨1, ?_⟩
    rw [Function.iterate_one, splitStep_eq_nil_iff]
    intro l hl
    have hmem : l.length ^ 2 ∈ items.map (fun l => l.length ^ 2) :=
      List.mem_map_of_mem _ hl
    have hsum0 : (items.map (fun l => l.length ^ 2)).sum = 0 := by
      have hle : (items.map (fun l => l.length ^ 2)).sum ≤ 0 := by
        simpa [sqMeasure] using h
      omega
    have hz : l.length ^ 2 = 0 := List.sum_eq_zero_iff.mp hsum0 _ hmem
    have hz2 : l.length * l.length = 0 := by
      have := hz
      rwa [pow_two] at this
    rcases Nat.mul_eq_zero.mp hz2 with h0 | h0 <;> omega
  | succ n ih =>
    intro items h
    by_cases hall : ∀ l ∈ items, l.length ≤ 1
    · refine ⟨1, ?_⟩
      rw [Function.iterate_one, splitStep_eq_nil_iff]
      exact hall
    · push_neg at hall
      obtain ⟨l, hl, hlen⟩ := hall
      have hlt := sqMeasure_splitStep_lt items ⟨l, hl, by omega⟩
      obtain ⟨m, hm⟩ := ih (splitStep items) (by omega)
      refine ⟨m + 1, ?_⟩
      rw [Function.iterate_succ_apply]
      exact hm

theorem splitStep_terminates (items : List (List ℕ)) :
    ∃ m, splitStep^[m] items = [] :=
  splitStep_terminates_of_measure (sqMeasure items) items le_rfl

theorem splitStep_eq_flatMap (items : List (List ℕ)) :
    splitStep items = items.flatMap (fun l => if 1 < l.length
      then [l.take (l.length / 2), l.drop (l.length / 2)] else []) := by
  induction items with
  | nil => simp [splitStep]
  | cons c rest ih => rw [splitStep_cons, List.flatMap_cons, ih]

/-- Generalized characterization of the `nodeAccum` fold. -/
theorem nodeAccum_foldl (risk : List ℕ → ℚ) (lset rset : List ℕ)
    (hdisj : ∀ x ∈ lset, x ∉ rset) :
    ∀ (cs : List (List ℕ)), (∀ c ∈ cs, c ≠ []) →
      ∀ (a : ℚ × ℚ × List ℕ × List ℕ),
      cs.foldl (fun acc c =>
        if subsetB c lset then
          (acc.1 + risk c, acc.2.1, acc.2.2.1 ++ c, acc.2.2.2)
        else if subsetB c rset then
          (acc.1, acc.2.1 + risk c, acc.2.2.1, acc.2.2.2 ++ c)
        else acc) a =
      (a.1 + ((cs.filter (fun c => subsetB c lset)).map risk).sum,
       a.2.1 + ((cs.filter (fun c => subsetB c rset)).map risk).sum,
       a.2.2.1 ++ (cs.filter (fun c => subsetB c lset)).flatten,
       a.2.2.2 ++ (cs.filter (fun c => subsetB c rset)).flatten) := by
  intro cs
  induction cs with
  | nil => intro _ a; simp
  | cons c rest ih =>
    intro hne a
    have hrest : ∀ d ∈ rest, d ≠ [] := fun d hd =>
      hne d (List.mem_cons_of_mem _ hd)
    have hcne : c ≠ [] := hne c (List.mem_cons_self c rest)
    by_cases hL : subsetB c lset = true
    · have hR : subsetB c rset = false := by
        obtain ⟨x, hx⟩ := List.exists_mem_of_ne_nil c hcne
        have hxl : x ∈ lset := (subsetB_iff c lset).mp hL x hx
        by_contra hcon
        have hRt : subsetB c rset = true := by
          revert hcon
          cases subsetB c rset <;> simp
        have hxr : x ∈ rset := (subsetB_iff c rset).mp hRt x hx
        exact hdisj x hxl hxr

      simp only [List.foldl_cons, hL, if_true, List.filter_cons, hR,
        Bool.false_eq_true, if_false]
      rw [ih hrest]
      simp [Prod.mk.injEq, add_assoc, List.append_assoc]
    · have hLf : subsetB c lset = false := by
        revert hL
        cases subsetB c lset <;> simp
      by_cases hR : subsetB c rset = true
      · simp only [List.foldl_cons, hLf, Bool.false_eq_true, if_false, hR,
          if_true, List.filter_cons]
        rw [ih hrest]
        simp [Prod.mk.injEq, add_assoc, List.append_assoc]
      · have hRf : subsetB c rset = false := by
          revert hR
          cases subsetB c rset <;> simp
        simp only [List.foldl_cons, hLf, hRf, Bool.false_eq_true, if_false,
          List.filter_cons]
        rw [ih hrest]

end HCPortfolio

namespace HCPortfolio

/-! ### Claim theorems -/

/-- C3 counterexample: for the unknown metric name `"foo"` the
codependence/distance stage does not produce an explicitly raised
configuration error; it falls through the dispatch with the distance
variable unassigned (`UnboundLocalError`), refuting the claim as stated
(evaluated over `ℚ` with identity placeholders for the transcendental
functions, which no branch reached by `"foo"` uses). -/
theorem distElem_unknown_metric_not_configError :
    distElem (α := ℚ) id id "foo" 0 0 = StageResult.unboundLocal ∧
    (distElem (α := ℚ) id id "foo" 0 0).isConfigError = false ∧
    "foo" ∉ supportedCodependence := by
  refine ⟨by decide, by decide, by decide⟩

/-- C3 (amended): for every metric name outside the supported set, the
distance stage fails by falling through the `if/elif` chain with the
distance variable unassigned (an incidental `UnboundLocalError` crash),
not by an explicitly raised configuration error and not by a silent
fallback to a default metric. -/
theorem distElem_unknown_metric_unboundLocal {α : Type} [Sub α] [Div α]
    [Neg α] [Min α] [Max α] [OfNat α 0] [OfNat α 1] [OfNat α 2]
    (sqrtF logF : α → α) (metric : String) (vi c : α)
    (h : metric ∉ supportedCodependence) :
    distElem sqrtF logF metric vi c = StageResult.unboundLocal := by
  simp only [supportedCodependence, corrMetrics, absMetrics, List.append_assoc,
    List.mem_append, List.mem_cons, List.not_mem_nil, or_false] at h
  push_neg at h
  obtain ⟨⟨h1, h2, h3, h4, h5, h6⟩, ⟨h7, h8, h9, h10⟩, h11, h12⟩ := h
  simp [distElem, corrMetrics, absMetrics, h1, h2, h3, h4, h5, h6, h7, h8,
    h9, h10, h11, h12]

/-- Witness for C3's amended theorem at the concrete metric `"foo"`. -/
theorem distElem_unknown_metric_unboundLocal_witness :
    distElem (α := ℚ) id id "foo" 1 1 = StageResult.unboundLocal :=
  distElem_unknown_metric_unboundLocal id id "foo" 1 1 (by decide)

/-- C6: the distance transform maps a codependence entry `c` to
`sqrt(clip((1-c)/2, 0, 1))` for the correlation family, to
`sqrt(clip(1-c, 0, 1))` for the absolute-value family, and to `-ln c` for
the tail metric; and `c = 1` gives distance `0` for both correlation
families. -/
theorem distElem_formulas (m1 m2 : String) (vi c : ℝ)
    (h1 : m1 ∈ corrMetrics) (h2 : m2 ∈ absMetrics) :
    distElem Real.sqrt Real.log m1 vi c =
      .ok (Real.sqrt (npclip ((1 - c) / 2) 0 1)) ∧
    distElem Real.sqrt Real.log m2 vi c =
      .ok (Real.sqrt (npclip (1 - c) 0 1)) ∧
    distElem Real.sqrt Real.log "tail" vi c = .ok (-Real.log c) ∧
    (c = 1 → distElem Real.sqrt Real.log m1 vi c = .ok 0 ∧
      distElem Real.sqrt Real.log m2 vi c = .ok 0) := by
  have hm2ne : m2 ∉ corrMetrics := by
    simp only [absMetrics, List.mem_cons, List.not_mem_nil, or_false] at h2
    rcases h2 with h | h | h | h <;> subst h <;> decide
  have e1 : distElem Real.sqrt Real.log m1 vi c =
      .ok (Real.sqrt (npclip ((1 - c) / 2) 0 1)) := by
    simp [distElem, h1]
  have e2 : distElem Real.sqrt Real.log m2 vi c =
      .ok (Real.sqrt (npclip (1 - c) 0 1)) := by
    simp [distElem, hm2ne, h2]
  refine ⟨e1, e2, by simp [distElem, corrMetrics, absMetrics], ?_⟩
  intro hc
  subst hc
  constructor
  · rw [e1]
    norm_num [npclip]
  · rw [e2]
    norm_num [npclip]

/-- Witness for C6 at `m1 = "pearson"`, `m2 = "distance"`, `c = 1`. -/
theorem distElem_formulas_witness :
    distElem Real.sqrt Real.log "pearson" 0 1 =
      .ok (Real.sqrt (npclip ((1 - 1) / 2) 0 1)) ∧
    distElem Real.sqrt Real.log "distance" 0 1 =
      .ok (Real.sqrt (npclip (1 - 1) 0 1)) ∧
    distElem Real.sqrt Real.log "tail" 0 1 = .ok (-Real.log 1) ∧
    ((1 : ℝ) = 1 → distElem Real.sqrt Real.log "pearson" 0 1 = .ok 0 ∧
      distElem Real.sqrt Real.log "distance" 0 1 = .ok 0) :=
  distElem_formulas "pearson" "distance" 0 1 (by decide) (by decide)

/-- C5: on a nonempty subset, the `"equal"` selector yields `n` equal
weights `1/n` summing to 1; any other selector yields the per-asset risks
(evaluated with `"MV"` substituted when the selector is `"vol"`), inverted
as `1/risk²` for `"MV"` and `1/risk` otherwise, normalized to sum to 1
(entry `k` equals its inverted risk divided by the total). -/
theorem naiveRisk_spec (sharpe : String → List ℕ → List ℚ → ℚ)
    (rm : String) (c : List ℕ) (hn : 0 < c.length) (hrm : rm ≠ "equal")
    (hpos : ∀ k < c.length, 0 < perAssetRisk sharpe rm c k) :
    (naiveRisk sharpe "equal" c).length = c.length ∧
    (∀ w ∈ naiveRisk sharpe "equal" c, w = 1 / (c.length : ℚ)) ∧
    (naiveRisk sharpe "equal" c).sum = 1 ∧
    (naiveRisk sharpe rm c).sum = 1 ∧
    (∀ k < c.length, (naiveRisk sharpe rm c).getD k 0 =
      invertRisk rm (perAssetRisk sharpe rm c k) /
        ((List.range c.length).map
          (fun j => invertRisk rm (perAssetRisk sharpe rm c j))).sum) ∧
    (∀ r : ℚ, invertRisk "MV" r = 1 / r ^ 2) ∧
    (rm ≠ "MV" → ∀ r : ℚ, invertRisk rm r = 1 / r) ∧
    (∀ k : ℕ, perAssetRisk sharpe "vol" c k =
      sharpe "MV" c (unitVec c.length k)) := by
  have hc0 : (c.length : ℚ) ≠ 0 := Nat.cast_ne_zero.mpr hn.ne'
  have hinvpos : ∀ k < c.length,
      0 < invertRisk rm (perAssetRisk sharpe rm c k) := by
    intro k hk
    have hr := hpos k hk
    by_cases hMV : rm = "MV"
    · subst hMV
      simp only [invertRisk, if_pos rfl]
      exact div_pos one_pos (pow_pos hr 2)
    · simp only [invertRisk, if_neg hMV]
      exact div_pos one_pos hr
  have hsumpos : 0 < ((List.range c.length).map
      (fun j => invertRisk rm (perAssetRisk sharpe rm c j))).sum := by
    apply List.sum_pos
    · intro x hx
      obtain ⟨k, hk, rfl⟩ := List.mem_map.mp hx
      exact hinvpos k (List.mem_range.mp hk)
    · simp only [ne_eq, List.map_eq_nil_iff, List.range_eq_nil]
      exact hn.ne'
  have hsumne : ((List.range c.length).map
      (fun j => invertRisk rm (perAssetRisk sharpe rm c j))).sum ≠ 0 :=
    hsumpos.ne'
  refine ⟨?_, ?_, ?_, ?_, ?_, ?_, ?_, ?_⟩
  · simp [naiveRisk]
  · intro w hw
    simp only [naiveRisk, if_pos rfl] at hw
    exact List.eq_of_mem_replicate hw
  · simp only [naiveRisk, if_pos rfl, List.sum_replicate, nsmul_eq_mul]
    field_simp
  · simp only [naiveRisk, if_neg hrm]
    rw [List.sum_map_mul_right]
    rw [show (List.map (fun x => x)
        (List.map (fun k => invertRisk rm (perAssetRisk sharpe rm c k))
          (List.range c.length))) =
        List.map (fun k => invertRisk rm (perAssetRisk sharpe rm c k))
          (List.range c.length) from List.map_id _]
    field_simp
  · intro k hk
    simp only [naiveRisk, if_neg hrm]
    rw [List.getD_eq_getElem?_getD, List.getElem?_map, List.getElem?_map,
      List.getElem?_range hk]
    simp only [Option.map_some', Option.getD_some]
    field_simp
  · intro r
    simp [invertRisk]
  · intro hMV r
    simp [invertRisk, hMV]
  · intro k
    simp [perAssetRisk]

/-- Witness for C5 at `rm = "CVaR"` on the two-asset subset `[5, 7]` with a
constant external risk function returning `2`. -/
theorem naiveRisk_spec_witness :
    (naiveRisk (fun _ _ _ => 2) "equal" [5, 7]).length = [5, 7].length ∧
    (∀ w ∈ naiveRisk (fun _ _ _ => 2) "equal" [5, 7],
      w = 1 / (([5, 7] : List ℕ).length : ℚ)) ∧
    (naiveRisk (fun _ _ _ => 2) "equal" [5, 7]).sum = 1 ∧
    (naiveRisk (fun _ _ _ => 2) "CVaR" [5, 7]).sum = 1 ∧
    (∀ k < ([5, 7] : List ℕ).length,
      (naiveRisk (fun _ _ _ => 2) "CVaR" [5, 7]).getD k 0 =
      invertRisk "CVaR" (perAssetRisk (fun _ _ _ => 2) "CVaR" [5, 7] k) /
        ((List.range ([5, 7] : List ℕ).length).map
          (fun j => invertRisk "CVaR"
            (perAssetRisk (fun _ _ _ => 2) "CVaR" [5, 7] j))).sum) ∧
    (∀ r : ℚ, invertRisk "MV" r = 1 / r ^ 2) ∧
    ("CVaR" ≠ "MV" → ∀ r : ℚ, invertRisk "CVaR" r = 1 / r) ∧
    (∀ k : ℕ, perAssetRisk (fun _ _ _ => 2) "vol" [5, 7] k =
      (fun (_ : String) (_ : List ℕ) (_ : List ℚ) => (2 : ℚ)) "MV" [5, 7]
        (unitVec ([5, 7] : List ℕ).length k)) :=
  naiveRisk_spec (fun _ _ _ => 2) "CVaR" [5, 7] (by decide) (by decide)
    (fun k _ => by simp [perAssetRisk])

/-- C4 counterexample: at a node with left descendant leaf-set `[0]`, right
`[1]`, the single final cluster `[0]` and unit cluster risks, the source's
left-side risk total is 1 — the cluster equals the left descendant set and
is still counted by `issubset` — while the specification's strict-subset
rule totals 0, so the claim as stated is false. -/
theorem nodeAccum_strict_counterexample :
    (nodeAccum (fun _ => 1) [0] [1] [[0]]).1 = 1 ∧
    specStrictLeftRisk (fun _ => 1) [0] [[0]] = 0 ∧
    (nodeAccum (fun _ => 1) [0] [1] [[0]]).1 ≠
      specStrictLeftRisk (fun _ => 1) [0] [[0]] := by
  have h1 : (nodeAccum (fun _ => (1 : ℚ)) [0] [1] [[0]]).1 = 1 := by
    norm_num [nodeAccum, subsetB]
  have h2 : specStrictLeftRisk (fun _ => (1 : ℚ)) [0] [[0]] = 0 := by
    norm_num [specStrictLeftRisk, subsetB]
  refine ⟨h1, h2, ?_⟩
  rw [h1, h2]
  norm_num

/-- C4 (amended): at an internal node whose descendant leaf-sets are
disjoint and whose final clusters are nonempty, the left-side risk total is
the sum of the risks of exactly those final clusters that are subsets —
not necessarily strict — of the left descendant set, and the left-side
asset set is the concatenation of exactly those clusters; symmetrically on
the right; hence a cluster that is a subset of neither descendant set
contributes zero to both side totals and to both side asset sets. -/
theorem nodeAccum_spec (risk : List ℕ → ℚ) (lset rset : List ℕ)
    (clusters : List (List ℕ))
    (hdisj : ∀ x ∈ lset, x ∉ rset)
    (hne : ∀ c ∈ clusters, c ≠ []) :
    (nodeAccum risk lset rset clusters).1 =
      ((clusters.filter (fun c => subsetB c lset)).map risk).sum ∧
    (nodeAccum risk lset rset clusters).2.1 =
      ((clusters.filter (fun c => subsetB c rset)).map risk).sum ∧
    (nodeAccum risk lset rset clusters).2.2.1 =
      (clusters.filter (fun c => subsetB c lset)).flatten ∧
    (nodeAccum risk lset rset clusters).2.2.2 =
      (clusters.filter (fun c => subsetB c rset)).flatten := by
  have h := nodeAccum_foldl risk lset rset hdisj clusters hne (0, 0, [], [])
  unfold nodeAccum
  rw [h]
  simp

/-- Witness for C4's amended theorem: left set `[0, 1]`, right set `[2]`,
final clusters `[[0], [1], [2]]`, cluster risk = cluster length. -/
theorem nodeAccum_spec_witness :
    (nodeAccum (fun c => (c.length : ℚ)) [0, 1] [2] [[0], [1], [2]]).1 =
      ((([[0], [1], [2]] : List (List ℕ)).filter
        (fun c => subsetB c [0, 1])).map (fun c => (c.length : ℚ))).sum ∧
    (nodeAccum (fun c => (c.length : ℚ)) [0, 1] [2] [[0], [1], [2]]).2.1 =
      ((([[0], [1], [2]] : List (List ℕ)).filter
        (fun c => subsetB c [2])).map (fun c => (c.length : ℚ))).sum ∧
    (nodeAccum (fun c => (c.length : ℚ)) [0, 1] [2] [[0], [1], [2]]).2.2.1 =
      (([[0], [1], [2]] : List (List ℕ)).filter
        (fun c => subsetB c [0, 1])).flatten ∧
    (nodeAccum (fun c => (c.length : ℚ)) [0, 1] [2] [[0], [1], [2]]).2.2.2 =
      (([[0], [1], [2]] : List (List ℕ)).filter
        (fun c => subsetB c [2])).flatten :=
  nodeAccum_spec (fun c => (c.length : ℚ)) [0, 1] [2] [[0], [1], [2]]
    (by decide) (by decide)

/-- C7: in HRP recursive bisection every worklist range of length > 1 is
split deterministically at its floor-division midpoint into
`take (len/2)` and `drop (len/2)` — the two halves reassemble the range,
the left half has `len/2` elements and is the strictly smaller half for odd
lengths — ranges of length ≤ 1 are dropped from the worklist (their
weights stay as already allocated), and the loop terminates: the worklist
empties exactly when every remaining range has length 1. -/
theorem splitStep_spec (items : List (List ℕ))
    (h : ∀ l ∈ items, 1 ≤ l.length) :
    splitStep items = items.flatMap (fun l => if 1 < l.length
      then [l.take (l.length / 2), l.drop (l.length / 2)] else []) ∧
    (∀ l ∈ items, 1 < l.length →
      l.take (l.length / 2) ++ l.drop (l.length / 2) = l ∧
      (l.take (l.length / 2)).length = l.length / 2 ∧
      (l.length % 2 = 1 →
        (l.take (l.length / 2)).length < (l.drop (l.length / 2)).length)) ∧
    ((splitStep items = []) ↔ ∀ l ∈ items, l.length = 1) ∧
    (∃ m, splitStep^[m] items = []) := by
  refine ⟨splitStep_eq_flatMap items, ?_, ?_, splitStep_terminates items⟩
  · intro l _ hl
    have hta : (l.take (l.length / 2)).length = l.length / 2 := by
      simp [List.length_take]
      omega
    have hdr : (l.drop (l.length / 2)).length = l.length - l.length / 2 := by
      simp [List.length_drop]
    refine ⟨List.take_append_drop _ _, hta, ?_⟩
    intro hodd
    rw [hta, hdr]
    omega
  · rw [splitStep_eq_nil_iff]
    constructor
    · intro hall l hl
      have := h l hl
      have := hall l hl
      omega
    · intro hall l hl
      have := hall l hl
      omega

/-- Witness for C7 on the worklist `[[4, 2, 7]]`. -/
theorem splitStep_spec_witness :
    splitStep [[4, 2, 7]] =
      ([[4, 2, 7]] : List (List ℕ)).flatMap (fun l => if 1 < l.length
        then [l.take (l.length / 2), l.drop (l.length / 2)] else []) ∧
    (∀ l ∈ ([[4, 2, 7]] : List (List ℕ)), 1 < l.length →
      l.take (l.length / 2) ++ l.drop (l.length / 2) = l ∧
      (l.take (l.length / 2)).length = l.length / 2 ∧
      (l.length % 2 = 1 →
        (l.take (l.length / 2)).length < (l.drop (l.length / 2)).length)) ∧
    ((splitStep [[4, 2, 7]] = []) ↔
      ∀ l ∈ ([[4, 2, 7]] : List (List ℕ)), l.length = 1) ∧
    (∃ m, splitStep^[m] [[4, 2, 7]] = []) :=
  splitStep_spec [[4, 2, 7]] (by decide)

/-- C8: the Bound Projector of step 4 of `optimization` is the identity
when no constraint is active: if every weight already lies within its
bounds, the outer violation guard is false and the vector passes through
unchanged. -/
theorem boundProject_id (n : ℕ) (w lb ub : ℕ → ℚ)
    (h : ∀ i < n, lb i ≤ w i ∧ w i ≤ ub i) :
    boundProject n w lb ub = w := by
  have hv : violationB n w lb ub = false := by
    simp only [violationB, List.any_eq_false, List.mem_range]
    intro i hi hcon
    have hcon2 : ub i < w i ∨ lb i > w i := by simpa using hcon
    rcases hcon2 with hx | hx
    · exact absurd hx (not_lt.mpr (h i hi).2)
    · exact absurd hx (not_lt.mpr (h i hi).1)
  unfold boundProject
  rw [hv]
  exact if_neg Bool.false_ne_true

/-- Witness for C8: two assets at weight 1/2 inside bounds [0, 1]. -/
theorem boundProject_id_witness :
    boundProject 2 (fun _ => 1 / 2) (fun _ => 0) (fun _ => 1) =
      (fun _ => (1 / 2 : ℚ)) :=
  boundProject_id 2 (fun _ => 1 / 2) (fun _ => 0) (fun _ => 1)
    (fun i _ => by norm_num)

/-- C9: a singleton cluster bypasses the external convex optimizer: for
every optimizer behaviour `opt` and every objective, `_opt_w` on a
one-asset cluster returns the weight vector `[1]` directly (so no
optimizer error can originate there), and the cluster's `_intra_weights`
column carries weight 1 on its single asset and 0 on every other asset. -/
theorem optW_singleton (opt : String → List ℕ → Except String (List ℚ))
    (obj : String) (a : ℕ) :
    optW opt obj [a] = .ok [1] ∧
    (∀ x, intraCol [a] [1] x = if x = a then 1 else 0) := by
  constructor
  · simp [optW]
  · intro x
    by_cases hx : x = a
    · subst hx
      simp [intraCol, List.findIdx?_cons]
    · simp [intraCol, List.findIdx?_cons, List.findIdx?_nil, hx,
        Ne.symm hx]

/-- C10: `_recursive_bisection` never reads its `upper_bound` /
`lower_bound` parameters: any two bounds configurations passed to the HRP
bisection produce identical pre-projection weight vectors, for every sort
order, risk selector and external risk function — bounds can influence the
final output only through the later projection pass. -/
theorem recursiveBisection_bounds_independent
    (sharpe : String → List ℕ → List ℚ → ℚ) (rm : String)
    (sortOrder : List ℕ) (ub1 lb1 ub2 lb2 : List ℚ) :
    recursiveBisection sharpe rm sortOrder ub1 lb1 =
      recursiveBisection sharpe rm sortOrder ub2 lb2 := rfl

/-- C1 (documents the code divergence): with risk selector `"equal"`, a
stage-1 node step of `_hierarchical_recursive_bisection` leaves the running
weights unchanged: the source assigns `alpha_1 = 0.5` but the two
`weights.iloc[...] *=` statements are indented inside the `else` branch, so
no 50/50 multiplication happens — each weight stays 1 instead of the
claimed 1 · 0.5. -/
theorem hercStage1_equal_no_halving :
    hercStage1 (fun _ _ _ => 1) "equal" [[0], [1]]
      [⟨false, [0], [1]⟩] 2 (fun _ => 1) 0 = 1 ∧
    hercStage1 (fun _ _ _ => 1) "equal" [[0], [1]]
      [⟨false, [0], [1]⟩] 2 (fun _ => 1) 1 = 1 ∧
    ((1 : ℚ) ≠ (1 : ℚ) * (1 / 2)) := by
  refine ⟨?_, ?_, by norm_num⟩ <;>
    norm_num [hercStage1, hercNodeStep]

/-- C2 (documents the code divergence): the full HERC allocation with risk
selector `"equal"`, `k = 2`, two assets and singleton final clusters:
stage 1 performs no weight update (the updates sit inside the `else`
branch), the intra-cluster pass gives each singleton cluster naive weight
1, and the pre-projection weights sum to the cluster count 2, not 1. -/
theorem hercWeights_equal_sum_ne_one :
    hercWeights (fun _ _ _ => 1) "HERC" "equal"
      [⟨false, [0], [1]⟩] 2 [[0], [1]] 0 = 1 ∧
    hercWeights (fun _ _ _ => 1) "HERC" "equal"
      [⟨false, [0], [1]⟩] 2 [[0], [1]] 1 = 1 ∧
    ((List.range 2).map (hercWeights (fun _ _ _ => 1) "HERC" "equal"
      [⟨false, [0], [1]⟩] 2 [[0], [1]])).sum = 2 ∧
    ((2 : ℚ) ≠ 1) := by
  have h0 : hercWeights (fun _ _ _ => 1) "HERC" "equal"
      [⟨false, [0], [1]⟩] 2 [[0], [1]] 0 = 1 := by
    norm_num [hercWeights, hercIntra, hercStage1, hercNodeStep, naiveRisk]
  have h1 : hercWeights (fun _ _ _ => 1) "HERC" "equal"
      [⟨false, [0], [1]⟩] 2 [[0], [1]] 1 = 1 := by
    norm_num [hercWeights, hercIntra, hercStage1, hercNodeStep, naiveRisk]
  refine ⟨h0, h1, ?_, by norm_num⟩
  rw [show List.range 2 = [0, 1] from rfl]
  rw [List.map_cons, List.map_cons, List.map_nil, h0, h1]
  norm_num

end HCPortfolio
